import Mathlib

/-!
Verification development for the grammar-combinator matcher
(`sqlfluff/core/parser/grammar/anyof.py`) and the reference resolver
(`sqlfluff/rules/references/RF01.py`) of the repository.

The combinator matcher is embedded as executable Lean functions over a
closed grammar datatype; the element list of a combinator is cons-encoded
inside the datatype itself so that every static attribute is plainly
structural.  The repetition loop carries explicit fuel, making its
recursion structural on a natural number (and hence kernel-computable);
fuel is shown irrelevant above the structural size of the grammar, and
the public wrappers instantiate it adequately.  Leaf grammar elements,
the match-result truthiness, the `trim_non_code_segments` helper, the
longest-match selection and `object_ref_matches_table` are external
collaborators whose code is not part of the sources; they are modelled
from the spec, as marked on each such definition.
-/

namespace SfOM

/-- A parse-tree leaf segment: raw text, syntactic type tags, and whether
it is significant code (as opposed to whitespace).  Mirrors the data model
of the spec; positions and children are irrelevant to the matcher. -/
structure Segment where
  raw : String
  types : List String
  isCode : Bool
deriving DecidableEq, Repr

/-- Result of one match call: matched leading segments plus the unmatched
remainder (`sqlfluff.core.parser.match_result.MatchResult`). -/
structure MatchResult where
  matched_segments : List Segment
  unmatched_segments : List Segment
deriving DecidableEq, Repr

/-- MatchResult.from_unmatched: a failed match carrying the input as
unmatched. -/
def MatchResult.from_unmatched (segs : List Segment) : MatchResult :=
  ⟨[], segs⟩

/-- MatchResult.from_empty. -/
def MatchResult.from_empty : MatchResult := ⟨[], []⟩

/-- Modelled from the spec: truthiness of a `MatchResult` (`if match:`),
true when some segments were matched; a failure carries an empty matched
part. -/
def MatchResult.has_match (m : MatchResult) : Bool :=
  !m.matched_segments.isEmpty

/-- Closed grammar-element datatype (the spec recommends a closed tagged
variant over leaf/combinator kinds).  Leaves are external collaborators
per the spec: `keyword` and `typeLeaf` expose a simple characterization
(first raw text resp. first type tag), `ref` matches like `keyword` but
exposes none.  `anyNumberOf` carries the recognized options of
`AnyNumberOf.__init__`: elements, max_times, min_times,
max_times_per_element, exclude (a flag plus the grammar, mirroring
`None`), allow_gaps and the optionality flag.  Element lists are
cons-encoded with `gnil`/`gcons` so the type is plainly recursive. -/
inductive Grammar where
  | keyword (text : String) : Grammar
  | typeLeaf (tag : String) : Grammar
  | ref (text : String) : Grammar
  | gnil : Grammar
  | gcons (g : Grammar) (rest : Grammar) : Grammar
  | anyNumberOf (elems : Grammar) (max_times : Option Nat)
      (min_times : Nat) (max_times_per_element : Option Nat)
      (hasExclude : Bool) (exclude : Grammar) (allow_gaps : Bool)
      (optionalFlag : Bool) : Grammar

/-- Cons-encoded element cells, as a Lean list; a non-cell in tail
position counts as the empty list. -/
def elemsOf : Grammar → List Grammar
  | .gcons g rest => g :: elemsOf rest
  | _ => []

/-- Build a cons-encoded element list. -/
def glist : List Grammar → Grammar
  | [] => .gnil
  | g :: rest => .gcons g (glist rest)

/-- Structural size, used to supply adequate fuel to the matcher. -/
def gsize : Grammar → Nat
  | .keyword _ => 1
  | .typeLeaf _ => 1
  | .ref _ => 1
  | .gnil => 1
  | .gcons g rest => 1 + gsize g + gsize rest
  | .anyNumberOf elems _ _ _ _ excl _ _ => 1 + gsize elems + gsize excl

/-- Python truthiness of an optional integer option (`if self.max_times
and ...`): `None` and `0` are falsy. -/
def optPos : Option Nat → Bool
  | some (Nat.succ _) => true
  | _ => false

/-- Modelled from the spec: a leaf matching a single code segment by its
literal raw text (the external keyword/string matcher contract). -/
def leafKeywordMatch (text : String) (segs : List Segment) : MatchResult :=
  match segs with
  | [] => MatchResult.from_unmatched []
  | s :: rest =>
    if s.isCode && s.raw == text then ⟨[s], rest⟩
    else MatchResult.from_unmatched (s :: rest)

/-- Modelled from the spec: a leaf matching a single segment by type tag
(the external typed matcher contract). -/
def leafTypeMatch (tag : String) (segs : List Segment) : MatchResult :=
  match segs with
  | [] => MatchResult.from_unmatched []
  | s :: rest =>
    if s.types.contains tag then ⟨[s], rest⟩
    else MatchResult.from_unmatched (s :: rest)

/-- Combination of two simple characterizations: `none` when either is
`none`, otherwise componentwise union (list concatenation, read as a
set). -/
def combineSimple :
    Option (List String × List String) →
    Option (List String × List String) →
    Option (List String × List String)
  | some (r1, t1), some (r2, t2) => some (r1 ++ r2, t1 ++ t2)
  | _, _ => none

/-- Simple characterization (`AnyNumberOf.simple`, source lines 35-53):
`none` when any element gives `none`, otherwise the componentwise unions
of the elements' raw-text and type-tag sets.  Leaves follow the external
contract modelled from the spec; on element cells the function computes
the combination over the cells, with a non-cell tail counting as the end
of the list. -/
def Grammar.simple : Grammar → Option (List String × List String)
  | .keyword t => some ([t], [])
  | .typeLeaf tag => some ([], [tag])
  | .ref _ => none
  | .gnil => some ([], [])
  | .gcons g rest =>
    combineSimple (Grammar.simple g)
      (match rest with
       | .gcons _ _ => Grammar.simple rest
       | _ => some ([], []))
  | .anyNumberOf elems _ _ _ _ _ _ _ =>
    match elems with
    | .gcons _ _ => Grammar.simple elems
    | _ => some ([], [])

/-- The simple characterization of a cons-encoded element list (what
`Grammar.simple` computes on the `elems` argument of a combinator). -/
def cellSimple (x : Grammar) : Option (List String × List String) :=
  match x with
  | .gcons _ _ => Grammar.simple x
  | _ => some ([], [])

/-- First segment of the stream exposing a non-whitespace raw
(`AnyNumberOf._first_non_whitespace`, source lines 63-72): skips
whitespace and empty-raw segments, returning the raw and the type tags. -/
def firstNonWhitespace : List Segment → Option (String × List String)
  | [] => none
  | s :: rest =>
    if s.isCode && s.raw != "" then some (s.raw, s.types)
    else firstNonWhitespace rest

/-- Keep-or-prune test of `AnyNumberOf._prune_options` (source lines
92-128): a non-simple option is always kept; a simple one is kept when
the first raw is among its raws or the first type tags intersect its
types. -/
def keepOption (firstRaw : String) (firstTypes : List String)
    (g : Grammar) : Bool :=
  match g.simple with
  | none => true
  | some (raws, tys) =>
    (!raws.isEmpty && raws.contains firstRaw) ||
      (!tys.isEmpty && firstTypes.any (fun t => tys.contains t))

/-- `AnyNumberOf._prune_options` (source lines 74-143) on
index-decorated options: with no non-whitespace element every option is
returned, otherwise the keep test filters the options. -/
def pruneOptions (opts : List (Nat × Grammar)) (segs : List Segment) :
    List (Nat × Grammar) :=
  match firstNonWhitespace segs with
  | none => opts
  | some (firstRaw, firstTypes) =>
    opts.filter fun og => keepOption firstRaw firstTypes og.2

/-- Modelled from the spec: `BaseGrammar._longest_trimmed_match`, absent
from the sources — try every option in order, select the match consuming
the most segments, ties broken in favour of the earlier option; when no
option matches return an unmatched result and no option. -/
def ltm (matchFn : Grammar → List Segment → MatchResult) :
    List (Nat × Grammar) → List Segment → MatchResult × Option Nat
  | [], segs => (MatchResult.from_unmatched segs, none)
  | og :: rest, segs =>
    let m := matchFn og.2 segs
    let r := ltm matchFn rest segs
    if m.has_match &&
        m.matched_segments.length ≥ r.1.matched_segments.length then
      (m, some og.1)
    else r

/-- `AnyNumberOf._match_once` (source lines 145-176): prune (when `p` is
set; the `p = false` variant keeps every alternative, for the pruning
transparency claim), return unmatched when no option survives, otherwise
take the longest match among the survivors. -/
def matchOnceF (matchFn : Grammar → List Segment → MatchResult) (p : Bool)
    (opts : List (Nat × Grammar)) (segs : List Segment) :
    MatchResult × Option Nat :=
  let available := if p then pruneOptions opts segs else opts
  if available.isEmpty then (MatchResult.from_unmatched segs, none)
  else ltm matchFn available segs

/-- Modelled from the spec: `trim_non_code_segments`, absent from the
sources — split a sequence into leading non-code, a code-bounded middle
and trailing non-code. -/
def trimNonCode (segs : List Segment) :
    List Segment × List Segment × List Segment :=
  let pre := segs.takeWhile (fun s => !s.isCode)
  let body := segs.dropWhile (fun s => !s.isCode)
  let post := (body.reverse.takeWhile (fun s => !s.isCode)).reverse
  let mid := (body.reverse.dropWhile (fun s => !s.isCode)).reverse
  (pre, mid, post)

/-- Decorate options with their positions, which model the per-element
identity cache keys of the repetition counters. -/
def indexOptions : Nat → List Grammar → List (Nat × Grammar)
  | _, [] => []
  | i, g :: rest => (i, g) :: indexOptions (i + 1) rest

/-- The leading non-code segments set aside before a repetition (source
lines 221-227): present only once a match happened and gaps are
allowed. -/
def gapPre (gaps : Bool) (n : Nat) (u : List Segment) : List Segment :=
  if n > 0 && gaps then (trimNonCode u).1 else []

/-- The working remainder of a repetition (source lines 221-227):
`mid_seg + post_seg` after trimming when gaps apply, the untouched
remainder otherwise. -/
def gapRest (gaps : Bool) (n : Nat) (u : List Segment) : List Segment :=
  if n > 0 && gaps then
    (trimNonCode u).2.1 ++ (trimNonCode u).2.2
  else u

/-- The repetition loop of `AnyNumberOf.match` (source lines 196-261),
fueled, parametrized by the single-repetition step function.  The second
component of the result is a ghost flag: `true` when the call returned
through a success branch, `false` for the match-failure returns
(`MatchResult.from_unmatched` at source lines 219 and 261).  State: the
accumulated matched segments, the unmatched remainder, the repetition
count and the per-element counters. -/
def loopF (step : List Segment → MatchResult × Option Nat)
    (maxT : Option Nat) (minT : Nat) (mpe : Option Nat) (gaps : Bool) :
    Nat → List Segment → List Segment → Nat → (Nat → Nat) →
    MatchResult × Bool
  | 0, _, unmatched, _, _ => (MatchResult.from_unmatched unmatched, false)
  | lf + 1, acc, unmatched, n, counter =>
    if optPos maxT && decide (n ≥ maxT.getD 0) then
      (⟨acc, unmatched⟩, true)
    else if unmatched.length = 0 then
      if n ≥ minT then (⟨acc, unmatched⟩, true)
      else (MatchResult.from_unmatched unmatched, false)
    else
      match step (gapRest gaps n unmatched) with
      | (m, some key) =>
        if optPos mpe && decide (counter key + 1 > mpe.getD 0) then
          (⟨acc, gapRest gaps n unmatched⟩, true)
        else if m.has_match then
          loopF step maxT minT mpe gaps lf
            (acc ++ gapPre gaps n unmatched ++ m.matched_segments)
            m.unmatched_segments (n + 1)
            (fun k => if k = key then counter k + 1 else counter k)
        else if n ≥ minT then
          (⟨acc, gapPre gaps n unmatched ++ gapRest gaps n unmatched⟩, true)
        else (MatchResult.from_unmatched (gapRest gaps n unmatched), false)
      | (m, none) =>
        if m.has_match then
          loopF step maxT minT mpe gaps lf
            (acc ++ gapPre gaps n unmatched ++ m.matched_segments)
            m.unmatched_segments (n + 1) counter
        else if n ≥ minT then
          (⟨acc, gapPre gaps n unmatched ++ gapRest gaps n unmatched⟩, true)
        else (MatchResult.from_unmatched (gapRest gaps n unmatched), false)

/-- Fueled matcher (`AnyNumberOf.match`, source lines 178-261, plus the
external leaf contracts): the exclude grammar forces an immediate failure
when it matches, otherwise the repetition loop runs over the elements.
The Bool is the ghost success flag of `loopF` (`false` also for the
exclude failure).  Element cells themselves never match anything. -/
def matchF : Nat → Bool → Grammar → List Segment → MatchResult × Bool
  | 0, _, _, segs => (MatchResult.from_unmatched segs, false)
  | fuel + 1, p, g, segs =>
    match g with
    | .keyword t => let m := leafKeywordMatch t segs; (m, m.has_match)
    | .typeLeaf t => let m := leafTypeMatch t segs; (m, m.has_match)
    | .ref t => let m := leafKeywordMatch t segs; (m, m.has_match)
    | .gnil => (MatchResult.from_unmatched segs, false)
    | .gcons _ _ => (MatchResult.from_unmatched segs, false)
    | .anyNumberOf elems maxT minT mpe hasExcl excl gaps _ =>
      if hasExcl && (matchF fuel p excl segs).1.has_match then
        (MatchResult.from_unmatched segs, false)
      else
        loopF
          (fun u =>
            matchOnceF (fun g2 s2 => (matchF fuel p g2 s2).1) p
              (indexOptions 0 (elemsOf elems)) u)
          maxT minT mpe gaps (segs.length + 1) [] segs 0 (fun _ => 0)

/-- Public matcher with its ghost success flag, at adequate fuel. -/
def Grammar.matchFull (p : Bool) (g : Grammar) (segs : List Segment) :
    MatchResult × Bool :=
  matchF (gsize g + 1) p g segs

/-- Public matcher: the `MatchResult` of a single `match` call. -/
def Grammar.matchSeg (g : Grammar) (segs : List Segment) : MatchResult :=
  (g.matchFull true segs).1

/-- The matcher with the pre-filter replaced by one keeping every
alternative (the comparison point of the pruning-transparency claim). -/
def Grammar.matchSegNoPrune (g : Grammar) (segs : List Segment) :
    MatchResult :=
  (g.matchFull false segs).1

/-- `OneOf` (source lines 264-272): `AnyNumberOf` with
`max_times = 1, min_times = 1` and the remaining defaults. -/
def oneOf (a b : Grammar) : Grammar :=
  .anyNumberOf (glist [a, b]) (some 1) 1 none false .gnil true false

/-- `AnySetOf` (source lines 291-295): `AnyNumberOf` with
`max_times_per_element = 1` and the remaining defaults. -/
def anySetOf (a b : Grammar) : Grammar :=
  .anyNumberOf (glist [a, b]) none 0 (some 1) false .gnil true false

/-- `AnyNumberOf.is_optional` (source lines 55-61): the explicit flag, or
`min_times = 0`.  Leaves are modelled without an optionality flag. -/
def Grammar.is_optional : Grammar → Bool
  | .anyNumberOf _ _ minT _ _ _ _ optFlag => optFlag || decide (minT = 0)
  | _ => false

/-- Configurations under which the partition invariant is provable: every
combinator requires at most one repetition (`min_times ≤ 1`) and does not
combine gap skipping with a positive `max_times_per_element` cap,
recursively over the elements. -/
def Grammar.tame : Grammar → Bool
  | .keyword _ => true
  | .typeLeaf _ => true
  | .ref _ => true
  | .gnil => true
  | .gcons g rest => Grammar.tame g && Grammar.tame rest
  | .anyNumberOf elems _ minT mpe _ _ gaps _ =>
    decide (minT ≤ 1) && (!(optPos mpe) || !gaps) && Grammar.tame elems

/-! ### Reference resolver (`Rule_RF01`) -/

/-- One table alias visible in a scope
(`sqlfluff.core.dialects.common.AliasInfo`, reduced to the fields RF01
reads): the display name, whether it was explicitly aliased, and the
underlying object reference already reduced to its name-part tuple. -/
structure AliasInfo where
  ref_str : String
  aliased : Bool
  object_reference : Option (List String)
deriving DecidableEq, Repr

/-- One query scope with its accumulated visible names (the `aliases` and
`standalone_aliases` fields of `RF01Query`); the parent chain is
represented as a list of scopes, innermost first. -/
structure Scope where
  aliases : List AliasInfo
  standalone_aliases : List String
deriving DecidableEq, Repr

/-- A reported violation (`LintResult`), reduced to the description; the
anchor segment is outside the model. -/
structure LintResult where
  description : String
deriving DecidableEq, Repr

/-- `Rule_RF01._alias_info_as_tuples` (source lines 120-127): the aliased
display name as a singleton tuple when explicitly aliased, plus the
underlying object-reference tuple when present. -/
def aliasInfoAsTuples (a : AliasInfo) : List (List String) :=
  (if a.aliased then [[a.ref_str]] else []) ++
    (match a.object_reference with
     | some t => [t]
     | none => [])

/-- The visible-name tuples of a scope (`Rule_RF01._resolve_reference`,
source lines 222-226): alias tuples of every alias, then the standalone
aliases as singleton tuples. -/
def scopeTargets (q : Scope) : List (List String) :=
  (q.aliases.foldr (fun a acc => aliasInfoAsTuples a ++ acc) []) ++
    q.standalone_aliases.map (fun s => [s])

/-- Modelled from the spec: `object_ref_matches_table`
(`sqlfluff.core.rules.reference`), absent from the sources.  Reference
tuples and visible-name tuples are ordered tuples of name parts compared
by suffix comparison: a possible reference matches a target when the
tuples are equal or one is a suffix of the other; the call succeeds when
any possible reference matches any target. -/
def objectRefMatchesTable (possible_references targets : List (List String)) :
    Bool :=
  possible_references.any fun pr =>
    targets.any fun t => pr = t || pr.isSuffixOf t || t.isSuffixOf pr

/-- `Rule_RF01._resolve_reference` (source lines 217-244) over the scope
chain (innermost scope first): succeed silently when some possible
reference matches the scope's visible names; otherwise climb to the
parent; at the root, fall back to the DML target-table tuple (skipped
when absent or empty, mirroring Python falsiness of an empty tuple), and
emit a single violation when that also fails. -/
def resolveReference (refRaw : String) (tblRefs : List (List String))
    (dml_target_table : Option (List String)) :
    List Scope → Option LintResult
  | [] => none
  | q :: ancestors =>
    if objectRefMatchesTable tblRefs (scopeTargets q) then none
    else
      match ancestors with
      | q2 :: rest =>
        resolveReference refRaw tblRefs dml_target_table (q2 :: rest)
      | [] =>
        if (match dml_target_table with
            | some d => !d.isEmpty && objectRefMatchesTable tblRefs [d]
            | none => false) then
          none
        else some ⟨refRaw⟩

/-- The dialect allow-list for which RF01 is disabled by default
(source lines 75-82). -/
def dialectsDisabledByDefault : List String :=
  ["bigquery", "databricks", "hive", "redshift", "soql", "sparksql"]

/-- Result of `Rule_RF01._eval`: either the bare `LintResult()` returned
by the dialect gate, or `violations or None`. -/
inductive EvalResult where
  | emptyResult : EvalResult
  | violations (v : Option (List LintResult)) : EvalResult
deriving DecidableEq, Repr

/-- The dialect gate of `Rule_RF01._eval` (source lines 84-118): on a
disabled-by-default dialect without `force_enable`, return the bare
`LintResult()`; otherwise run the reference analysis (supplied here as
the externally computed violation list) and return `violations or None`. -/
def ruleEval (dialectName : String) (forceEnable : Bool)
    (analysisResult : List LintResult) : EvalResult :=
  if dialectName ∈ dialectsDisabledByDefault ∧ forceEnable = false then
    .emptyResult
  else
    .violations
      (if analysisResult.isEmpty then none else some analysisResult)

/-! ### Concrete segments used by examples, witnesses and
counterexamples -/

/-- A code segment with raw text `foo`. -/
def fooSeg : Segment := ⟨"foo", ["word"], true⟩

/-- A code segment with raw text `bar`. -/
def barSeg : Segment := ⟨"bar", ["word"], true⟩

/-- A whitespace segment. -/
def wsSeg : Segment := ⟨" ", ["whitespace"], false⟩

/-! ### Basic lemmas -/

theorem elemsOf_glist (l : List Grammar) : elemsOf (glist l) = l := by
  induction l with
  | nil => rfl
  | cons g rest ih => simp [glist, elemsOf, ih]

theorem gsize_pos (g : Grammar) : 0 < gsize g := by
  cases g <;> simp [gsize]

theorem gsize_lt_of_mem_elemsOf {e x : Grammar} (h : e ∈ elemsOf x) :
    gsize e < gsize x := by
  induction x with
  | gcons g rest ih1 ih2 =>
    simp only [elemsOf, List.mem_cons] at h
    rcases h with h | h
    · subst h; simp [gsize]; omega
    · have := ih2 h
      simp [gsize]; omega
  | keyword t => simp [elemsOf] at h
  | typeLeaf t => simp [elemsOf] at h
  | ref t => simp [elemsOf] at h
  | gnil => simp [elemsOf] at h
  | anyNumberOf elems maxT minT mpe hE ex gaps opt ih1 ih2 =>
    simp [elemsOf] at h

theorem mem_of_mem_indexOptions {i : Nat} {g : Grammar} :
    ∀ {k : Nat} {l : List Grammar}, (i, g) ∈ indexOptions k l → g ∈ l := by
  intro k l
  induction l generalizing k with
  | nil => intro h; simp [indexOptions] at h
  | cons a rest ih =>
    intro h
    simp only [indexOptions, List.mem_cons] at h
    rcases h with h | h
    · have : g = a := congrArg Prod.snd h
      subst this; exact List.mem_cons_self _ _
    · exact List.mem_cons_of_mem _ (ih h)

theorem mem_of_mem_pruneOptions {og : Nat × Grammar}
    {opts : List (Nat × Grammar)} {segs : List Segment}
    (h : og ∈ pruneOptions opts segs) : og ∈ opts := by
  unfold pruneOptions at h
  rcases hfw : firstNonWhitespace segs with _ | fr
  · rwa [hfw] at h
  · rw [hfw] at h
    exact List.mem_of_mem_filter h

/-! ### Longest-match and single-step lemmas -/

theorem ltm_spec (matchFn : Grammar → List Segment → MatchResult)
    (opts : List (Nat × Grammar)) (segs : List Segment) :
    ltm matchFn opts segs = (MatchResult.from_unmatched segs, none) ∨
    ∃ i g, (i, g) ∈ opts ∧
      ltm matchFn opts segs = (matchFn g segs, some i) ∧
      (matchFn g segs).has_match = true := by
  induction opts with
  | nil => left; rfl
  | cons og rest ih =>
    obtain ⟨i0, g0⟩ := og
    simp only [ltm]
    by_cases hc :
        (matchFn g0 segs).has_match = true ∧
        (matchFn g0 segs).matched_segments.length ≥
          (ltm matchFn rest segs).1.matched_segments.length
    · right
      refine ⟨i0, g0, List.mem_cons_self _ _, ?_, hc.1⟩
      simp [hc.1, hc.2]
    · have hcond :
          ((matchFn g0 segs).has_match &&
            decide ((matchFn g0 segs).matched_segments.length ≥
              (ltm matchFn rest segs).1.matched_segments.length)) = false := by
        by_cases h : (matchFn g0 segs).has_match = true
        · simp only [h, Bool.true_and, decide_eq_false_iff_not]
          intro hge
          exact hc ⟨h, hge⟩
        · rw [Bool.not_eq_true] at h
          simp [h]
      rw [if_neg (by rw [hcond]; exact Bool.false_ne_true)]
      rcases ih with h | ⟨i, g, hmem, heq, hm⟩
      · left; exact h
      · right; exact ⟨i, g, List.mem_cons_of_mem _ hmem, heq, hm⟩

theorem ltm_congr {f1 f2 : Grammar → List Segment → MatchResult}
    {opts : List (Nat × Grammar)} {segs : List Segment}
    (h : ∀ og ∈ opts, f1 og.2 segs = f2 og.2 segs) :
    ltm f1 opts segs = ltm f2 opts segs := by
  induction opts with
  | nil => rfl
  | cons og rest ih =>
    simp only [ltm]
    rw [h og (List.mem_cons_self _ _),
      ih (fun og2 hm => h og2 (List.mem_cons_of_mem _ hm))]

theorem ltm_all_fail {f : Grammar → List Segment → MatchResult}
    {opts : List (Nat × Grammar)} {segs : List Segment}
    (h : ∀ og ∈ opts, (f og.2 segs).has_match = false) :
    ltm f opts segs = (MatchResult.from_unmatched segs, none) := by
  induction opts with
  | nil => rfl
  | cons og rest ih =>
    simp only [ltm]
    rw [h og (List.mem_cons_self _ _)]
    simp only [Bool.false_and]
    rw [if_neg Bool.false_ne_true]
    exact ih (fun og2 hm => h og2 (List.mem_cons_of_mem _ hm))

theorem mem_of_mem_available {og : Nat × Grammar} {p : Bool}
    {opts : List (Nat × Grammar)} {segs : List Segment}
    (h : og ∈ (if p then pruneOptions opts segs else opts)) : og ∈ opts := by
  cases p
  · simpa using h
  · simp only [if_pos rfl] at h
    exact mem_of_mem_pruneOptions h

theorem matchOnceF_spec (matchFn : Grammar → List Segment → MatchResult)
    (p : Bool) (opts : List (Nat × Grammar)) (segs : List Segment) :
    matchOnceF matchFn p opts segs =
      (MatchResult.from_unmatched segs, none) ∨
    ∃ i g, (i, g) ∈ opts ∧
      matchOnceF matchFn p opts segs = (matchFn g segs, some i) ∧
      (matchFn g segs).has_match = true := by
  unfold matchOnceF
  by_cases he : (if p then pruneOptions opts segs else opts).isEmpty
  · left; simp [he]
  · rw [if_neg he]
    rcases ltm_spec matchFn (if p then pruneOptions opts segs else opts)
        segs with h | ⟨i, g, hmem, heq, hm⟩
    · left; exact h
    · right
      exact ⟨i, g, mem_of_mem_available hmem, heq, hm⟩

theorem matchOnceF_congr {f1 f2 : Grammar → List Segment → MatchResult}
    (p : Bool) {opts : List (Nat × Grammar)} {segs : List Segment}
    (h : ∀ og ∈ opts, f1 og.2 segs = f2 og.2 segs) :
    matchOnceF f1 p opts segs = matchOnceF f2 p opts segs := by
  unfold matchOnceF
  by_cases he : (if p then pruneOptions opts segs else opts).isEmpty
  · simp [he]
  · rw [if_neg he, if_neg he,
      ltm_congr (fun og hm => h og (mem_of_mem_available hm))]

/-! ### Gap-trimming lemmas -/

theorem trimNonCode_mid_append_post (u : List Segment) :
    (trimNonCode u).2.1 ++ (trimNonCode u).2.2 =
      u.dropWhile (fun s => !s.isCode) := by
  unfold trimNonCode
  simp only
  rw [← List.reverse_append, List.takeWhile_append_dropWhile,
    List.reverse_reverse]

theorem gapPre_append_gapRest (gaps : Bool) (n : Nat) (u : List Segment) :
    gapPre gaps n u ++ gapRest gaps n u = u := by
  unfold gapPre gapRest
  by_cases h : (decide (n > 0) && gaps) = true
  · rw [if_pos h, if_pos h, trimNonCode_mid_append_post]
    unfold trimNonCode
    simp only
    exact List.takeWhile_append_dropWhile _ _
  · rw [if_neg h, if_neg h, List.nil_append]

theorem gapRest_sublist (gaps : Bool) (n : Nat) (u : List Segment) :
    (gapRest gaps n u).Sublist u := by
  unfold gapRest
  by_cases h : (decide (n > 0) && gaps) = true
  · rw [if_pos h, trimNonCode_mid_append_post]
    exact List.dropWhile_sublist _
  · rw [if_neg h]

theorem gapRest_length_le (gaps : Bool) (n : Nat) (u : List Segment) :
    (gapRest gaps n u).length ≤ u.length :=
  (gapRest_sublist gaps n u).length_le

/-! ### Loop lemmas -/

theorem loopF_congr {step1 step2 : List Segment → MatchResult × Option Nat}
    (maxT : Option Nat) (minT : Nat) (mpe : Option Nat) (gaps : Bool)
    (h : ∀ u, step1 u = step2 u) :
    ∀ (lf : Nat) (acc unmatched : List Segment) (n : Nat)
      (counter : Nat → Nat),
      loopF step1 maxT minT mpe gaps lf acc unmatched n counter =
        loopF step2 maxT minT mpe gaps lf acc unmatched n counter := by
  intro lf
  induction lf with
  | zero => intro acc unmatched n counter; rfl
  | succ lf ih =>
    intro acc unmatched n counter
    simp only [loopF, h, ih]

theorem loopF_sublist {step : List Segment → MatchResult × Option Nat}
    (maxT : Option Nat) (minT : Nat) (mpe : Option Nat) (gaps : Bool)
    (hstep : ∀ u,
      ((step u).1.matched_segments ++ (step u).1.unmatched_segments).Sublist
        u) :
    ∀ (lf : Nat) (acc unmatched : List Segment) (n : Nat)
      (counter : Nat → Nat) (segs0 : List Segment),
      (acc ++ unmatched).Sublist segs0 →
      (((loopF step maxT minT mpe gaps lf acc unmatched n
            counter).1.matched_segments ++
        (loopF step maxT minT mpe gaps lf acc unmatched n
            counter).1.unmatched_segments)).Sublist segs0 := by
  intro lf
  induction lf with
  | zero =>
    intro acc unmatched n counter segs0 hinv
    simpa [loopF, MatchResult.from_unmatched] using
      (List.sublist_append_right acc unmatched).trans hinv
  | succ lf ih =>
    intro acc unmatched n counter segs0 hinv
    have hun : unmatched.Sublist segs0 :=
      (List.sublist_append_right acc unmatched).trans hinv
    have hrest : (acc ++ gapRest gaps n unmatched).Sublist segs0 := by
      refine (List.Sublist.append_left (gapRest_sublist gaps n unmatched)
        acc).trans hinv
    simp only [loopF]
    by_cases h1 : (optPos maxT && decide (n ≥ maxT.getD 0)) = true
    · rw [if_pos h1]; exact hinv
    · rw [if_neg h1]
      by_cases h2 : unmatched.length = 0
      · rw [if_pos h2]
        by_cases h3 : n ≥ minT
        · rw [if_pos h3]; exact hinv
        · rw [if_neg h3]
          simpa [MatchResult.from_unmatched] using hun
      · rw [if_neg h2]
        rcases hres : step (gapRest gaps n unmatched) with ⟨m, mo⟩
        have hsubm :
            (m.matched_segments ++ m.unmatched_segments).Sublist
              (gapRest gaps n unmatched) := by
          have := hstep (gapRest gaps n unmatched)
          rwa [hres] at this
        have hrec :
            ((acc ++ gapPre gaps n unmatched ++ m.matched_segments) ++
              m.unmatched_segments).Sublist segs0 := by
          have h5 :
              ((acc ++ gapPre gaps n unmatched) ++
                (m.matched_segments ++ m.unmatched_segments)).Sublist
                ((acc ++ gapPre gaps n unmatched) ++
                  gapRest gaps n unmatched) :=
            List.Sublist.append_left hsubm _
          have h6 :
              (acc ++ gapPre gaps n unmatched) ++
                  gapRest gaps n unmatched = acc ++ unmatched := by
            rw [List.append_assoc, gapPre_append_gapRest]
          rw [List.append_assoc (acc ++ gapPre gaps n unmatched)]
          exact (h6 ▸ h5).trans hinv
        cases mo with
        | some key =>
          dsimp only
          by_cases h4 : (optPos mpe && decide (counter key + 1 > mpe.getD 0))
              = true
          · rw [if_pos h4]; exact hrest
          · rw [if_neg h4]
            by_cases h5 : m.has_match = true
            · rw [if_pos h5]
              exact ih _ _ _ _ _ hrec
            · rw [if_neg h5]
              by_cases h6 : n ≥ minT
              · rw [if_pos h6]
                simpa [List.append_assoc, gapPre_append_gapRest] using hinv
              · rw [if_neg h6]
                simpa [MatchResult.from_unmatched] using
                  (gapRest_sublist gaps n unmatched).trans hun
        | none =>
          dsimp only
          by_cases h5 : m.has_match = true
          · rw [if_pos h5]
            exact ih _ _ _ _ _ hrec
          · rw [if_neg h5]
            by_cases h6 : n ≥ minT
            · rw [if_pos h6]
              simpa [List.append_assoc, gapPre_append_gapRest] using hinv
            · rw [if_neg h6]
              simpa [MatchResult.from_unmatched] using
                (gapRest_sublist gaps n unmatched).trans hun

/-! ### Matcher-level lemmas -/

theorem matchF_sublist :
    ∀ (fuel : Nat) (p : Bool) (g : Grammar) (segs : List Segment),
      ((matchF fuel p g segs).1.matched_segments ++
        (matchF fuel p g segs).1.unmatched_segments).Sublist segs := by
  intro fuel
  induction fuel with
  | zero =>
    intro p g segs
    simp [matchF, MatchResult.from_unmatched]
  | succ fuel ih =>
    intro p g segs
    cases g with
    | keyword t =>
      simp only [matchF]
      unfold leafKeywordMatch
      cases segs with
      | nil => simp [MatchResult.from_unmatched]
      | cons s rest =>
        dsimp only
        by_cases h : (s.isCode && s.raw == t) = true
        · rw [if_pos h]; simp
        · rw [if_neg h]; simp [MatchResult.from_unmatched]
    | typeLeaf t =>
      simp only [matchF]
      unfold leafTypeMatch
      cases segs with
      | nil => simp [MatchResult.from_unmatched]
      | cons s rest =>
        dsimp only
        by_cases h : s.types.contains t = true
        · rw [if_pos h]; simp
        · rw [if_neg h]; simp [MatchResult.from_unmatched]
    | ref t =>
      simp only [matchF]
      unfold leafKeywordMatch
      cases segs with
      | nil => simp [MatchResult.from_unmatched]
      | cons s rest =>
        dsimp only
        by_cases h : (s.isCode && s.raw == t) = true
        · rw [if_pos h]; simp
        · rw [if_neg h]; simp [MatchResult.from_unmatched]
    | gnil => simp [matchF, MatchResult.from_unmatched]
    | gcons g1 g2 => simp [matchF, MatchResult.from_unmatched]
    | anyNumberOf elems maxT minT mpe hasExcl excl gaps optFl =>
      simp only [matchF]
      by_cases hE : (hasExcl && (matchF fuel p excl segs).1.has_match) = true
      · rw [if_pos hE]; simp [MatchResult.from_unmatched]
      · rw [if_neg hE]
        have hstep : ∀ u,
            (((matchOnceF (fun g2 s2 => (matchF fuel p g2 s2).1) p
                  (indexOptions 0 (elemsOf elems)) u).1.matched_segments ++
              (matchOnceF (fun g2 s2 => (matchF fuel p g2 s2).1) p
                  (indexOptions 0 (elemsOf elems)) u).1.unmatched_segments)
              ).Sublist u := by
          intro u
          rcases matchOnceF_spec (fun g2 s2 => (matchF fuel p g2 s2).1) p
              (indexOptions 0 (elemsOf elems)) u with h | ⟨i, g2, _, heq, _⟩
          · rw [h]; simp [MatchResult.from_unmatched]
          · rw [heq]; exact ih p g2 u
        exact loopF_sublist maxT minT mpe gaps hstep _ [] segs 0 _ segs
          (by simp)

theorem matchF_fuel_irrel :
    ∀ (f1 f2 : Nat) (p : Bool) (g : Grammar) (segs : List Segment),
      gsize g < f1 → gsize g < f2 → matchF f1 p g segs = matchF f2 p g segs := by
  intro f1
  induction f1 using Nat.strong_induction_on with
  | _ f1 ih =>
    intro f2 p g segs h1 h2
    obtain ⟨a, rfl⟩ : ∃ a, f1 = a + 1 := ⟨f1 - 1, by omega⟩
    obtain ⟨b, rfl⟩ : ∃ b, f2 = b + 1 := ⟨f2 - 1, by omega⟩
    cases g with
    | keyword t => simp only [matchF]
    | typeLeaf t => simp only [matchF]
    | ref t => simp only [matchF]
    | gnil => simp only [matchF]
    | gcons g1 g2 => simp only [matchF]
    | anyNumberOf elems maxT minT mpe hasExcl excl gaps optFl =>
      have hszex : gsize excl < gsize (.anyNumberOf elems maxT minT mpe
          hasExcl excl gaps optFl) := by
        simp only [gsize]; omega
      have hszel : ∀ e ∈ elemsOf elems,
          gsize e < gsize (.anyNumberOf elems maxT minT mpe
            hasExcl excl gaps optFl) := by
        intro e he
        have := gsize_lt_of_mem_elemsOf he
        simp only [gsize]; omega
      simp only [gsize] at h1 h2
      have hex : matchF a p excl segs = matchF b p excl segs := by
        apply ih a (by omega) b p excl segs
        · simp only [gsize] at hszex; omega
        · simp only [gsize] at hszex; omega
      simp only [matchF]
      rw [hex]
      by_cases hcond : (hasExcl && (matchF b p excl segs).1.has_match) = true
      · rw [if_pos hcond, if_pos hcond]
      · rw [if_neg hcond, if_neg hcond]
        apply loopF_congr
        intro u
        apply matchOnceF_congr
        intro og hm
        have hsz := gsize_lt_of_mem_elemsOf (mem_of_mem_indexOptions hm)
        rw [ih a (by omega) b p og.2 u (by omega) (by omega)]

theorem matchF_eq_matchFull {fuel : Nat} (p : Bool) {g : Grammar}
    (segs : List Segment) (h : gsize g < fuel) :
    matchF fuel p g segs = Grammar.matchFull p g segs :=
  matchF_fuel_irrel fuel (gsize g + 1) p g segs h (by omega)

theorem matchF_any_eq (fuel : Nat) (p : Bool) (elems : Grammar)
    (maxT : Option Nat) (minT : Nat) (mpe : Option Nat) (hasExcl : Bool)
    (excl : Grammar) (gaps optFl : Bool) (segs : List Segment) :
    matchF (fuel + 1) p
      (.anyNumberOf elems maxT minT mpe hasExcl excl gaps optFl) segs =
    if hasExcl && (matchF fuel p excl segs).1.has_match then
      (MatchResult.from_unmatched segs, false)
    else
      loopF
        (fun u =>
          matchOnceF (fun g2 s2 => (matchF fuel p g2 s2).1) p
            (indexOptions 0 (elemsOf elems)) u)
        maxT minT mpe gaps (segs.length + 1) [] segs 0 (fun _ => 0) := rfl

theorem has_match_iff (m : MatchResult) :
    m.has_match = true ↔ m.matched_segments ≠ [] := by
  unfold MatchResult.has_match
  simp

theorem length_pos_of_has_match {m : MatchResult}
    (h : m.has_match = true) : 1 ≤ m.matched_segments.length := by
  rw [has_match_iff] at h
  cases hml : m.matched_segments with
  | nil => exact absurd hml h
  | cons a l => simp

theorem loopF_min0_flag {step : List Segment → MatchResult × Option Nat}
    (maxT : Option Nat) (mpe : Option Nat) (gaps : Bool)
    (hstep : ∀ u,
      ((step u).1.matched_segments ++ (step u).1.unmatched_segments).Sublist
        u) :
    ∀ (lf : Nat) (acc unmatched : List Segment) (n : Nat)
      (counter : Nat → Nat), unmatched.length < lf →
      (loopF step maxT 0 mpe gaps lf acc unmatched n counter).2 = true := by
  intro lf
  induction lf with
  | zero =>
    intro acc unmatched n counter h
    exact absurd h (Nat.not_lt_zero _)
  | succ lf ih =>
    intro acc unmatched n counter hlen
    simp only [loopF]
    by_cases h1 : (optPos maxT && decide (n ≥ maxT.getD 0)) = true
    · rw [if_pos h1]
    · rw [if_neg h1]
      by_cases h2 : unmatched.length = 0
      · rw [if_pos h2, if_pos (Nat.zero_le n)]
      · rw [if_neg h2]
        rcases hres : step (gapRest gaps n unmatched) with ⟨m, mo⟩
        have hsubm := hstep (gapRest gaps n unmatched)
        rw [hres] at hsubm
        have hlen2 : m.has_match = true →
            m.unmatched_segments.length < lf := by
          intro hm
          have hlm : m.matched_segments.length +
              m.unmatched_segments.length ≤
              (gapRest gaps n unmatched).length := by
            have := hsubm.length_le
            simpa using this
          have hpos := length_pos_of_has_match hm
          have hrle := gapRest_length_le gaps n unmatched
          omega
        cases mo with
        | some key =>
          dsimp only
          by_cases h4 : (optPos mpe && decide (counter key + 1 > mpe.getD 0))
              = true
          · rw [if_pos h4]
          · rw [if_neg h4]
            by_cases h5 : m.has_match = true
            · rw [if_pos h5]
              exact ih _ _ _ _ (hlen2 h5)
            · rw [if_neg h5, if_pos (Nat.zero_le n)]
        | none =>
          dsimp only
          by_cases h5 : m.has_match = true
          · rw [if_pos h5]
            exact ih _ _ _ _ (hlen2 h5)
          · rw [if_neg h5, if_pos (Nat.zero_le n)]

/-- C6: for every input segment sequence and every remaining
configuration without an exclude grammar, `AnyNumberOf` with
`min_times = 0` never fails: the single `match` call returns through a
success branch of the loop (ghost flag `true`), possibly consuming zero
segments. -/
theorem anyNumberOf_min0_never_fails (elems : Grammar) (maxT : Option Nat)
    (mpe : Option Nat) (excl : Grammar) (gaps optFl : Bool)
    (segs : List Segment) :
    (Grammar.matchFull true
      (.anyNumberOf elems maxT 0 mpe false excl gaps optFl) segs).2 =
      true := by
  unfold Grammar.matchFull
  rw [matchF_any_eq]
  simp only [Bool.false_and]
  rw [if_neg Bool.false_ne_true]
  apply loopF_min0_flag
  · intro u
    rcases matchOnceF_spec
        (fun g2 s2 => (matchF (gsize (Grammar.anyNumberOf elems maxT 0 mpe
          false excl gaps optFl)) true g2 s2).1) true
        (indexOptions 0 (elemsOf elems)) u with
      h | ⟨i, g2, _, heq, _⟩
    · rw [h]; simp [MatchResult.from_unmatched]
    · rw [heq]; exact matchF_sublist _ _ _ _
  · omega

/-! ### Partition lemmas under tame configurations -/

theorem optPos_one_le {o : Option Nat} (h : optPos o = true) :
    1 ≤ o.getD 0 := by
  cases o with
  | none => simp [optPos] at h
  | some k =>
    cases k with
    | zero => simp [optPos] at h
    | succ k2 => simp

theorem gapPre_zero (gaps : Bool) (u : List Segment) :
    gapPre gaps 0 u = [] := by
  simp [gapPre]

theorem gapRest_zero (gaps : Bool) (u : List Segment) :
    gapRest gaps 0 u = u := by
  simp [gapRest]

theorem tame_elems {x : Grammar} (h : Grammar.tame x = true) :
    ∀ e ∈ elemsOf x, Grammar.tame e = true := by
  induction x with
  | gcons g rest ih1 ih2 =>
    rw [show Grammar.tame (g.gcons rest) =
        (Grammar.tame g && Grammar.tame rest) from rfl] at h
    rw [Bool.and_eq_true] at h
    intro e he
    rcases List.mem_cons.mp he with rfl | he2
    · exact h.1
    · exact ih2 h.2 e he2
  | keyword t => intro e he; simp [elemsOf] at he
  | typeLeaf t => intro e he; simp [elemsOf] at he
  | ref t => intro e he; simp [elemsOf] at he
  | gnil => intro e he; simp [elemsOf] at he
  | anyNumberOf elems maxT minT mpe hE ex gaps opt ih1 ih2 =>
    intro e he; simp [elemsOf] at he

theorem loopF_tame {step : List Segment → MatchResult × Option Nat}
    (maxT : Option Nat) (minT : Nat) (mpe : Option Nat) (gaps : Bool)
    (hminT : minT ≤ 1) (hmg : optPos mpe = false ∨ gaps = false)
    (hstep : ∀ u,
      (step u).1.matched_segments ++ (step u).1.unmatched_segments = u) :
    ∀ (lf : Nat) (acc unmatched : List Segment) (n : Nat)
      (counter : Nat → Nat) (segs0 : List Segment),
      acc ++ unmatched = segs0 →
      (n = 0 → acc = [] ∧ ∀ k, counter k = 0) →
      (acc = [] → n = 0) →
      unmatched.length < lf →
      (loopF step maxT minT mpe gaps lf acc unmatched n
          counter).1.matched_segments ++
        (loopF step maxT minT mpe gaps lf acc unmatched n
          counter).1.unmatched_segments = segs0 ∧
      ((loopF step maxT minT mpe gaps lf acc unmatched n
          counter).1.matched_segments = [] →
        (loopF step maxT minT mpe gaps lf acc unmatched n
          counter).1.unmatched_segments = segs0) := by
  intro lf
  induction lf with
  | zero =>
    intro acc unmatched n counter segs0 hinv h0 hacc hlen
    exact absurd hlen (Nat.not_lt_zero _)
  | succ lf ih =>
    intro acc unmatched n counter segs0 hinv h0 hacc hlen
    simp only [loopF]
    by_cases h1 : (optPos maxT && decide (n ≥ maxT.getD 0)) = true
    · rw [if_pos h1]
      refine ⟨hinv, ?_⟩
      intro hm
      dsimp only at hm
      have hn0 := hacc hm
      rw [Bool.and_eq_true, decide_eq_true_iff] at h1
      have := optPos_one_le h1.1
      omega
    · rw [if_neg h1]
      by_cases h2 : unmatched.length = 0
      · rw [if_pos h2]
        have hue : unmatched = [] := List.length_eq_zero.mp h2
        by_cases h3 : n ≥ minT
        · rw [if_pos h3]
          refine ⟨hinv, ?_⟩
          intro hm
          dsimp only at hm
          have hn0 := hacc hm
          rw [hm] at hinv
          simpa using hinv
        · rw [if_neg h3]
          have hn0 : n = 0 := by omega
          have ha := (h0 hn0).1
          rw [ha] at hinv
          simp only [List.nil_append] at hinv
          exact ⟨by simpa [MatchResult.from_unmatched] using hinv,
            fun _ => by simpa [MatchResult.from_unmatched] using hinv⟩
      · rw [if_neg h2]
        rcases hres : step (gapRest gaps n unmatched) with ⟨m, mo⟩
        have hpart : m.matched_segments ++ m.unmatched_segments =
            gapRest gaps n unmatched := by
          have := hstep (gapRest gaps n unmatched)
          rwa [hres] at this
        have hrec : ∀ hm : m.has_match = true,
            (loopF step maxT minT mpe gaps lf
                (acc ++ gapPre gaps n unmatched ++ m.matched_segments)
                m.unmatched_segments (n + 1) (fun k =>
                  if k = mo.getD 0 then counter k + 1 else counter k)
              ).1.matched_segments ++
              (loopF step maxT minT mpe gaps lf
                (acc ++ gapPre gaps n unmatched ++ m.matched_segments)
                m.unmatched_segments (n + 1) (fun k =>
                  if k = mo.getD 0 then counter k + 1 else counter k)
              ).1.unmatched_segments = segs0 ∧
            ((loopF step maxT minT mpe gaps lf
                (acc ++ gapPre gaps n unmatched ++ m.matched_segments)
                m.unmatched_segments (n + 1) (fun k =>
                  if k = mo.getD 0 then counter k + 1 else counter k)
              ).1.matched_segments = [] →
              (loopF step maxT minT mpe gaps lf
                (acc ++ gapPre gaps n unmatched ++ m.matched_segments)
                m.unmatched_segments (n + 1) (fun k =>
                  if k = mo.getD 0 then counter k + 1 else counter k)
              ).1.unmatched_segments = segs0) := by
          intro hm
          apply ih
          · rw [List.append_assoc, List.append_assoc, hpart,
              gapPre_append_gapRest]
            exact hinv
          · intro h; omega
          · intro hc
            exfalso
            have hmm : m.matched_segments = [] :=
              (List.append_eq_nil.mp hc).2
            rw [has_match_iff] at hm
            exact hm hmm
          · have hlm : m.matched_segments.length +
                m.unmatched_segments.length =
                (gapRest gaps n unmatched).length := by
              rw [← hpart]; simp
            have hpos := length_pos_of_has_match hm
            have hrle := gapRest_length_le gaps n unmatched
            omega
        have hrec2 : ∀ hm : m.has_match = true,
            (loopF step maxT minT mpe gaps lf
                (acc ++ gapPre gaps n unmatched ++ m.matched_segments)
                m.unmatched_segments (n + 1) counter
              ).1.matched_segments ++
              (loopF step maxT minT mpe gaps lf
                (acc ++ gapPre gaps n unmatched ++ m.matched_segments)
                m.unmatched_segments (n + 1) counter
              ).1.unmatched_segments = segs0 ∧
            ((loopF step maxT minT mpe gaps lf
                (acc ++ gapPre gaps n unmatched ++ m.matched_segments)
                m.unmatched_segments (n + 1) counter
              ).1.matched_segments = [] →
              (loopF step maxT minT mpe gaps lf
                (acc ++ gapPre gaps n unmatched ++ m.matched_segments)
                m.unmatched_segments (n + 1) counter
              ).1.unmatched_segments = segs0) := by
          intro hm
          apply ih
          · rw [List.append_assoc, List.append_assoc, hpart,
              gapPre_append_gapRest]
            exact hinv
          · intro h; omega
          · intro hc
            exfalso
            have hmm : m.matched_segments = [] :=
              (List.append_eq_nil.mp hc).2
            rw [has_match_iff] at hm
            exact hm hmm
          · have hlm : m.matched_segments.length +
                m.unmatched_segments.length =
                (gapRest gaps n unmatched).length := by
              rw [← hpart]; simp
            have hpos := length_pos_of_has_match hm
            have hrle := gapRest_length_le gaps n unmatched
            omega
        have hnomatch :
            acc ++ (gapPre gaps n unmatched ++ gapRest gaps n unmatched) =
              segs0 := by
          rw [gapPre_append_gapRest]; exact hinv
        have hnomatch2 : ∀ hn : n < minT,
            ([] : List Segment) ++ gapRest gaps n unmatched = segs0 ∧
            (([] : List Segment) = [] →
              gapRest gaps n unmatched = segs0) := by
          intro hn
          have hn0 : n = 0 := by omega
          have ha := (h0 hn0).1
          subst hn0
          rw [gapRest_zero]
          rw [ha] at hinv
          simp only [List.nil_append] at hinv
          exact ⟨by simpa using hinv, fun _ => hinv⟩
        cases mo with
        | some key =>
          dsimp only
          by_cases h4 : (optPos mpe && decide (counter key + 1 > mpe.getD 0))
              = true
          · rw [if_pos h4]
            rw [Bool.and_eq_true, decide_eq_true_iff] at h4
            have hgaps : gaps = false := by
              rcases hmg with hmg | hmg
              · rw [hmg] at h4; exact absurd h4.1 Bool.false_ne_true
              · exact hmg
            have hgr : gapRest gaps n unmatched = unmatched := by
              simp [gapRest, hgaps]
            refine ⟨by dsimp only; rw [hgr]; exact hinv, ?_⟩
            intro hm
            dsimp only at hm
            exfalso
            have hn0 := hacc hm
            have := (h0 hn0).2 key
            have := optPos_one_le h4.1
            omega
          · rw [if_neg h4]
            by_cases h5 : m.has_match = true
            · rw [if_pos h5]
              simpa using hrec h5
            · rw [if_neg h5]
              by_cases h6 : n ≥ minT
              · rw [if_pos h6]
                refine ⟨by dsimp only; exact hnomatch, ?_⟩
                intro hm
                dsimp only at hm
                have hn0 := hacc hm
                have ha := (h0 hn0).1
                subst hn0
                rw [gapPre_zero, gapRest_zero] at hnomatch ⊢
                dsimp only
                rw [ha] at hinv
                simpa using hinv
              · rw [if_neg h6]
                have := hnomatch2 (by omega)
                exact ⟨by simpa [MatchResult.from_unmatched] using this.1,
                  fun _ => by
                    simpa [MatchResult.from_unmatched] using this.1⟩
        | none =>
          dsimp only
          by_cases h5 : m.has_match = true
          · rw [if_pos h5]
            simpa using hrec2 h5
          · rw [if_neg h5]
            by_cases h6 : n ≥ minT
            · rw [if_pos h6]
              refine ⟨by dsimp only; exact hnomatch, ?_⟩
              intro hm
              dsimp only at hm
              have hn0 := hacc hm
              have ha := (h0 hn0).1
              subst hn0
              rw [gapPre_zero, gapRest_zero] at hnomatch ⊢
              dsimp only
              rw [ha] at hinv
              simpa using hinv
            · rw [if_neg h6]
              have := hnomatch2 (by omega)
              exact ⟨by simpa [MatchResult.from_unmatched] using this.1,
                fun _ => by
                  simpa [MatchResult.from_unmatched] using this.1⟩

theorem matchF_tame :
    ∀ (fuel : Nat) (p : Bool) (g : Grammar) (segs : List Segment),
      gsize g < fuel → Grammar.tame g = true →
      (matchF fuel p g segs).1.matched_segments ++
        (matchF fuel p g segs).1.unmatched_segments = segs ∧
      ((matchF fuel p g segs).1.matched_segments = [] →
        (matchF fuel p g segs).1.unmatched_segments = segs) := by
  intro fuel
  induction fuel using Nat.strong_induction_on with
  | _ fuel ih =>
    intro p g segs hsz htame
    obtain ⟨a, rfl⟩ : ∃ a, fuel = a + 1 := ⟨fuel - 1, by omega⟩
    cases g with
    | keyword t =>
      cases segs with
      | nil => exact ⟨rfl, fun _ => rfl⟩
      | cons s rest =>
        by_cases h : (s.isCode && s.raw == t) = true
        · constructor
          · simp [matchF, leafKeywordMatch, h]
          · simp [matchF, leafKeywordMatch, h]
        · constructor
          · simp [matchF, leafKeywordMatch, h, MatchResult.from_unmatched]
          · simp [matchF, leafKeywordMatch, h, MatchResult.from_unmatched]
    | typeLeaf t =>
      cases segs with
      | nil => exact ⟨rfl, fun _ => rfl⟩
      | cons s rest =>
        by_cases h : s.types.contains t = true
        · have h2 : t ∈ s.types := by simpa using h
          constructor
          · simp [matchF, leafTypeMatch, h2]
          · simp [matchF, leafTypeMatch, h2]
        · have h2 : ¬t ∈ s.types := by simpa using h
          constructor
          · simp [matchF, leafTypeMatch, h2, MatchResult.from_unmatched]
          · simp [matchF, leafTypeMatch, h2, MatchResult.from_unmatched]
    | ref t =>
      cases segs with
      | nil => exact ⟨rfl, fun _ => rfl⟩
      | cons s rest =>
        by_cases h : (s.isCode && s.raw == t) = true
        · constructor
          · simp [matchF, leafKeywordMatch, h]
          · simp [matchF, leafKeywordMatch, h]
        · constructor
          · simp [matchF, leafKeywordMatch, h, MatchResult.from_unmatched]
          · simp [matchF, leafKeywordMatch, h, MatchResult.from_unmatched]
    | gnil => exact ⟨rfl, fun _ => rfl⟩
    | gcons g1 g2 => exact ⟨rfl, fun _ => rfl⟩
    | anyNumberOf elems maxT minT mpe hasExcl excl gaps optFl =>
      have ht : (decide (minT ≤ 1) && (!(optPos mpe) || !gaps) &&
          Grammar.tame elems) = true := htame
      rw [Bool.and_eq_true, Bool.and_eq_true] at ht
      have hminT : minT ≤ 1 := by
        have := ht.1.1
        simpa using this
      have hmg : optPos mpe = false ∨ gaps = false := by
        have := ht.1.2
        rcases Bool.or_eq_true_iff.mp this with h | h
        · left; simpa using h
        · right; simpa using h
      have htel := ht.2
      rw [matchF_any_eq]
      by_cases hE : (hasExcl && (matchF a p excl segs).1.has_match) = true
      · rw [if_pos hE]
        exact ⟨by simp [MatchResult.from_unmatched],
          fun _ => by simp [MatchResult.from_unmatched]⟩
      · rw [if_neg hE]
        apply loopF_tame maxT minT mpe gaps hminT hmg
        · intro u
          rcases matchOnceF_spec (fun g2 s2 => (matchF a p g2 s2).1) p
              (indexOptions 0 (elemsOf elems)) u with
            h | ⟨i, g2, hmem, heq, _⟩
          · rw [h]; simp [MatchResult.from_unmatched]
          · rw [heq]
            have hg2 : g2 ∈ elemsOf elems := mem_of_mem_indexOptions hmem
            have hsz2 : gsize g2 < a := by
              have h3 := gsize_lt_of_mem_elemsOf hg2
              simp only [gsize] at hsz
              omega
            exact (ih a (by omega) p g2 u hsz2 (tame_elems htel g2 hg2)).1
        · rfl
        · intro _; exact ⟨rfl, fun _ => rfl⟩
        · intro _; rfl
        · omega

/-- C1 (corrected, amended form): for every input and configuration, the
result of a single `match` call never duplicates or reorders segments —
`matched ++ unmatched` is an order-preserving sublist of the input — and
under tame configurations (every combinator has `min_times ≤ 1` and does
not combine gap skipping with a `max_times_per_element` cap) the full
claim holds: `matched ++ unmatched` equals the input exactly, and a
failed match returns the whole original input as unmatched. -/
theorem anyNumberOf_partition (g : Grammar) (segs : List Segment) :
    ((Grammar.matchSeg g segs).matched_segments ++
      (Grammar.matchSeg g segs).unmatched_segments).Sublist segs ∧
    (Grammar.tame g = true →
      (Grammar.matchSeg g segs).matched_segments ++
        (Grammar.matchSeg g segs).unmatched_segments = segs ∧
      ((Grammar.matchSeg g segs).matched_segments = [] →
        (Grammar.matchSeg g segs).unmatched_segments = segs)) := by
  constructor
  · exact matchF_sublist _ _ _ _
  · intro ht
    exact matchF_tame _ true g segs (by omega) ht

/-- C1 witness: the amended claim applied to `OneOf(foo, bar)` on the
input `[foo]`. -/
theorem anyNumberOf_partition_witness :
    Grammar.tame (oneOf (.keyword "foo") (.keyword "bar")) = true ∧
    ((Grammar.matchSeg (oneOf (.keyword "foo") (.keyword "bar"))
        [fooSeg]).matched_segments ++
      (Grammar.matchSeg (oneOf (.keyword "foo") (.keyword "bar"))
        [fooSeg]).unmatched_segments = [fooSeg] ∧
      ((Grammar.matchSeg (oneOf (.keyword "foo") (.keyword "bar"))
          [fooSeg]).matched_segments = [] →
        (Grammar.matchSeg (oneOf (.keyword "foo") (.keyword "bar"))
          [fooSeg]).unmatched_segments = [fooSeg])) :=
  ⟨by decide,
    (anyNumberOf_partition (oneOf (.keyword "foo") (.keyword "bar"))
      [fooSeg]).2 (by decide)⟩

/-- C1 counterexample: `AnyNumberOf([keyword foo], min_times = 2)` on
`[foo, bar]` fails after consuming one repetition and returns
`(empty, [bar])` — the already-consumed `foo` is dropped, so
`matched ++ unmatched` is not the original input and the failure does not
carry the full original input as unmatched. -/
theorem anyNumberOf_partition_counterexample :
    (Grammar.matchSeg
        (.anyNumberOf (glist [.keyword "foo"]) none 2 none false .gnil
          true false) [fooSeg, barSeg]).matched_segments = [] ∧
    (Grammar.matchSeg
        (.anyNumberOf (glist [.keyword "foo"]) none 2 none false .gnil
          true false) [fooSeg, barSeg]).unmatched_segments ≠
      [fooSeg, barSeg] := by
  constructor
  · decide
  · decide

/-- C4: with `max_times_per_element = 1` (the `AnySetOf` configuration),
the second match of the same alternative exceeds the cap, the last match
is discarded and the previously accumulated segments are returned:
`AnySetOf(keyword foo, keyword bar)` on `[foo, foo]` yields
`matched = [foo]`, `unmatched = [foo]`. -/
theorem anySetOf_discards_capped_match :
    Grammar.matchSeg (anySetOf (.keyword "foo") (.keyword "bar"))
      [fooSeg, fooSeg] = ⟨[fooSeg], [fooSeg]⟩ := by
  decide

/-- C10: `is_optional` is true whenever `min_times = 0`, even without the
explicit optional flag; with positive `min_times` it returns the explicit
flag; in particular the default configuration (`min_times = 0`, no
explicit flag) reports itself optional. -/
theorem is_optional_spec (elems : Grammar) (maxT : Option Nat)
    (minT : Nat) (mpe : Option Nat) (hE : Bool) (ex : Grammar)
    (gaps optFl : Bool) :
    (minT = 0 →
      Grammar.is_optional
        (.anyNumberOf elems maxT minT mpe hE ex gaps optFl) = true) ∧
    (minT ≠ 0 →
      Grammar.is_optional
        (.anyNumberOf elems maxT minT mpe hE ex gaps optFl) = optFl) ∧
    Grammar.is_optional (.anyNumberOf elems maxT 0 mpe hE ex gaps false) =
      true := by
  refine ⟨?_, ?_, ?_⟩
  · intro h
    simp [Grammar.is_optional, h]
  · intro h
    simp [Grammar.is_optional, h]
  · simp [Grammar.is_optional]

/-- C10 witness: the specification applied to the default configuration
and to an explicit `min_times = 2`. -/
theorem is_optional_spec_witness :
    Grammar.is_optional
      (.anyNumberOf (glist [.keyword "foo"]) none 0 none false .gnil true
        false) = true ∧
    Grammar.is_optional
      (.anyNumberOf (glist [.keyword "foo"]) none 2 none false .gnil true
        false) = false :=
  ⟨(is_optional_spec (glist [.keyword "foo"]) none 0 none false .gnil true
      false).1 rfl,
    (is_optional_spec (glist [.keyword "foo"]) none 2 none false .gnil true
      false).2.1 (by decide)⟩

/-- C9: on a dialect of the disabled-by-default allow-list without
`force_enable`, `_eval` returns the bare empty result without reporting
violations; with `force_enable` the rule returns the outcome of the
reference analysis (`violations or None`). -/
theorem ruleEval_dialect_gate (d : String) (f : Bool)
    (analysis : List LintResult) :
    (d ∈ dialectsDisabledByDefault → f = false →
      ruleEval d f analysis = .emptyResult) ∧
    (f = true →
      ruleEval d f analysis =
        .violations
          (if analysis.isEmpty then none else some analysis)) := by
  constructor
  · intro hd hf
    unfold ruleEval
    rw [if_pos ⟨hd, hf⟩]
  · intro hf
    unfold ruleEval
    rw [if_neg]
    intro h
    rw [hf] at h
    exact absurd h.2 (by simp)

/-- C9 witness: the gate applied to a disabled dialect and to a
force-enabled run. -/
theorem ruleEval_dialect_gate_witness :
    ruleEval "bigquery" false [] = .emptyResult ∧
    ruleEval "hive" true [] =
      .violations
        (if ([] : List LintResult).isEmpty then none else some []) :=
  ⟨(ruleEval_dialect_gate "bigquery" false []).1 (by decide) rfl,
    (ruleEval_dialect_gate "hive" true []).2 rfl⟩

/-- C3: with a non-empty interpretation list, `_resolve_reference`
produces no violation exactly when some interpretation matches the
visible names of some scope of the (innermost-first) chain, or, failing
the whole climb, the supplied non-empty DML target-table tuple matches;
otherwise it produces exactly one violation. -/
theorem resolveReference_spec :
    ∀ (chain : List Scope) (refRaw : String)
      (tblRefs : List (List String)) (dml : Option (List String)),
      chain ≠ [] → tblRefs ≠ [] →
      (resolveReference refRaw tblRefs dml chain = none ↔
        (∃ q ∈ chain,
          objectRefMatchesTable tblRefs (scopeTargets q) = true) ∨
        (∃ d, dml = some d ∧ d ≠ [] ∧
          objectRefMatchesTable tblRefs [d] = true)) := by
  have hsingle : ∀ (refRaw : String) (tblRefs : List (List String))
      (dml : Option (List String)) (q : Scope),
      resolveReference refRaw tblRefs dml [q] =
        if objectRefMatchesTable tblRefs (scopeTargets q) then none
        else
          if (match dml with
              | some d => !d.isEmpty && objectRefMatchesTable tblRefs [d]
              | none => false) then none
          else some ⟨refRaw⟩ := by
    intro refRaw tblRefs dml q
    rfl
  have hcons : ∀ (refRaw : String) (tblRefs : List (List String))
      (dml : Option (List String)) (q q2 : Scope) (rest : List Scope),
      resolveReference refRaw tblRefs dml (q :: q2 :: rest) =
        if objectRefMatchesTable tblRefs (scopeTargets q) then none
        else resolveReference refRaw tblRefs dml (q2 :: rest) := by
    intro refRaw tblRefs dml q q2 rest
    rfl
  intro chain
  induction chain with
  | nil => intro refRaw tblRefs dml h; exact absurd rfl h
  | cons q ancestors ih =>
    intro refRaw tblRefs dml _ htbl
    cases ancestors with
    | nil =>
      rw [hsingle]
      by_cases hq : objectRefMatchesTable tblRefs (scopeTargets q) = true
      · rw [if_pos hq]
        constructor
        · intro _
          exact Or.inl ⟨q, List.mem_cons_self _ _, hq⟩
        · intro _; rfl
      · rw [if_neg hq]
        cases dml with
        | none =>
          constructor
          · intro h
            rw [if_neg Bool.false_ne_true] at h
            exact absurd h (by simp)
          · rintro (⟨q2, hm, hmt⟩ | ⟨d, hd, _, _⟩)
            · rcases List.mem_singleton.mp hm with rfl
              exact absurd hmt hq
            · exact absurd hd (by simp)
        | some d =>
          by_cases hc :
              (!d.isEmpty && objectRefMatchesTable tblRefs [d]) = true
          · rw [if_pos hc]
            rw [Bool.and_eq_true] at hc
            constructor
            · intro _
              refine Or.inr ⟨d, rfl, ?_, hc.2⟩
              intro hde
              rw [hde] at hc
              simp at hc
            · intro _; rfl
          · rw [if_neg hc]
            constructor
            · intro h
              exact absurd h (by simp)
            · rintro (⟨q2, hm, hmt⟩ | ⟨d2, hd2, hne, hmt⟩)
              · rcases List.mem_singleton.mp hm with rfl
                exact absurd hmt hq
              · rcases Option.some_inj.mp hd2 with rfl
                exfalso
                apply hc
                rw [Bool.and_eq_true]
                refine ⟨?_, hmt⟩
                simpa using hne
    | cons q2 rest =>
      rw [hcons]
      by_cases hq : objectRefMatchesTable tblRefs (scopeTargets q) = true
      · rw [if_pos hq]
        constructor
        · intro _
          exact Or.inl ⟨q, List.mem_cons_self _ _, hq⟩
        · intro _; rfl
      · rw [if_neg hq]
        rw [ih refRaw tblRefs dml (by simp) htbl]
        constructor
        · rintro (⟨q3, hm, hmt⟩ | hd)
          · exact Or.inl ⟨q3, List.mem_cons_of_mem _ hm, hmt⟩
          · exact Or.inr hd
        · rintro (⟨q3, hm, hmt⟩ | hd)
          · rcases List.mem_cons.mp hm with rfl | hm2
            · exact absurd hmt hq
            · exact Or.inl ⟨q3, hm2, hmt⟩
          · exact Or.inr hd

theorem simple_any_eq (elems : Grammar) (maxT : Option Nat) (minT : Nat)
    (mpe : Option Nat) (hE : Bool) (ex : Grammar) (gaps opt : Bool) :
    Grammar.simple (.anyNumberOf elems maxT minT mpe hE ex gaps opt) =
      cellSimple elems := by
  cases elems <;> rfl

theorem cellSimple_gcons (g rest : Grammar) :
    cellSimple (.gcons g rest) =
      combineSimple (Grammar.simple g) (cellSimple rest) := by
  cases rest <;> rfl

theorem combineSimple_eq_none_iff
    (o1 o2 : Option (List String × List String)) :
    combineSimple o1 o2 = none ↔ o1 = none ∨ o2 = none := by
  rcases o1 with _ | ⟨r1, t1⟩ <;> rcases o2 with _ | ⟨r2, t2⟩ <;>
    simp [combineSimple]

theorem combineSimple_eq_some
    {o1 o2 : Option (List String × List String)}
    {raws tys : List String}
    (h : combineSimple o1 o2 = some (raws, tys)) :
    ∃ r1 t1 r2 t2, o1 = some (r1, t1) ∧ o2 = some (r2, t2) ∧
      raws = r1 ++ r2 ∧ tys = t1 ++ t2 := by
  rcases o1 with _ | ⟨r1, t1⟩ <;> rcases o2 with _ | ⟨r2, t2⟩ <;>
    simp [combineSimple] at h
  exact ⟨r1, t1, r2, t2, rfl, rfl, h.1.symm, h.2.symm⟩

theorem cellSimple_none_iff (x : Grammar) :
    cellSimple x = none ↔ ∃ e ∈ elemsOf x, Grammar.simple e = none := by
  induction x with
  | gcons g rest ih1 ih2 =>
    rw [cellSimple_gcons, combineSimple_eq_none_iff, ih2]
    simp [elemsOf]
  | keyword t => simp [cellSimple, elemsOf]
  | typeLeaf t => simp [cellSimple, elemsOf]
  | ref t => simp [cellSimple, elemsOf]
  | gnil => simp [cellSimple, elemsOf]
  | anyNumberOf elems maxT minT mpe hE ex gaps opt ih1 ih2 =>
    simp [cellSimple, elemsOf]

theorem cellSimple_some_mem :
    ∀ (x : Grammar) (raws tys : List String),
      cellSimple x = some (raws, tys) →
      (∀ a, a ∈ raws ↔ ∃ e ∈ elemsOf x, ∃ pr,
        Grammar.simple e = some pr ∧ a ∈ pr.1) ∧
      (∀ a, a ∈ tys ↔ ∃ e ∈ elemsOf x, ∃ pr,
        Grammar.simple e = some pr ∧ a ∈ pr.2) := by
  intro x
  induction x with
  | gcons g rest ih1 ih2 =>
    intro raws tys h
    rw [cellSimple_gcons] at h
    obtain ⟨r1, t1, r2, t2, hg, hrest, hr, ht⟩ := combineSimple_eq_some h
    obtain ⟨ihr, iht⟩ := ih2 r2 t2 hrest
    subst hr ht
    constructor
    · intro a
      rw [List.mem_append, ihr a]
      constructor
      · rintro (h1 | ⟨e, he, pr, hpr, ha⟩)
        · exact ⟨g, List.mem_cons_self _ _, (r1, t1), hg, h1⟩
        · exact ⟨e, List.mem_cons_of_mem _ he, pr, hpr, ha⟩
      · rintro ⟨e, he, pr, hpr, ha⟩
        rcases List.mem_cons.mp he with rfl | he2
        · rw [hg] at hpr
          rcases Option.some_inj.mp hpr with rfl
          exact Or.inl ha
        · exact Or.inr ⟨e, he2, pr, hpr, ha⟩
    · intro a
      rw [List.mem_append, iht a]
      constructor
      · rintro (h1 | ⟨e, he, pr, hpr, ha⟩)
        · exact ⟨g, List.mem_cons_self _ _, (r1, t1), hg, h1⟩
        · exact ⟨e, List.mem_cons_of_mem _ he, pr, hpr, ha⟩
      · rintro ⟨e, he, pr, hpr, ha⟩
        rcases List.mem_cons.mp he with rfl | he2
        · rw [hg] at hpr
          rcases Option.some_inj.mp hpr with rfl
          exact Or.inl ha
        · exact Or.inr ⟨e, he2, pr, hpr, ha⟩
  | keyword t =>
    intro raws tys h
    simp only [cellSimple] at h
    rcases Option.some_inj.mp h with h2
    injection h2 with hr ht
    subst hr; subst ht
    simp [elemsOf]
  | typeLeaf t =>
    intro raws tys h
    simp only [cellSimple] at h
    rcases Option.some_inj.mp h with h2
    injection h2 with hr ht
    subst hr; subst ht
    simp [elemsOf]
  | ref t =>
    intro raws tys h
    simp only [cellSimple] at h
    rcases Option.some_inj.mp h with h2
    injection h2 with hr ht
    subst hr; subst ht
    simp [elemsOf]
  | gnil =>
    intro raws tys h
    simp only [cellSimple] at h
    rcases Option.some_inj.mp h with h2
    injection h2 with hr ht
    subst hr; subst ht
    simp [elemsOf]
  | anyNumberOf elems maxT minT mpe hE ex gaps opt ih1 ih2 =>
    intro raws tys h
    simp only [cellSimple] at h
    rcases Option.some_inj.mp h with h2
    injection h2 with hr ht
    subst hr; subst ht
    simp [elemsOf]

/-- C8: the simple characterization of a combinator is `none` exactly
when some element's characterization is `none`; otherwise it is the pair
of componentwise unions (stated by membership) of the elements'
first-raw-text and first-type-tag sets. -/
theorem simple_characterization (elems : Grammar) (maxT : Option Nat)
    (minT : Nat) (mpe : Option Nat) (hE : Bool) (ex : Grammar)
    (gaps opt : Bool) :
    (Grammar.simple (.anyNumberOf elems maxT minT mpe hE ex gaps opt) =
        none ↔ ∃ e ∈ elemsOf elems, Grammar.simple e = none) ∧
    (∀ raws tys,
      Grammar.simple (.anyNumberOf elems maxT minT mpe hE ex gaps opt) =
          some (raws, tys) →
      (∀ a, a ∈ raws ↔ ∃ e ∈ elemsOf elems, ∃ pr,
        Grammar.simple e = some pr ∧ a ∈ pr.1) ∧
      (∀ a, a ∈ tys ↔ ∃ e ∈ elemsOf elems, ∃ pr,
        Grammar.simple e = some pr ∧ a ∈ pr.2)) := by
  rw [simple_any_eq]
  exact ⟨cellSimple_none_iff elems,
    fun raws tys h => cellSimple_some_mem elems raws tys h⟩

/-- C8 witness: the characterization applied to the element list
`[keyword foo, typeLeaf word]`, whose combined characterization is
`(["foo"], ["word"])`. -/
theorem simple_characterization_witness :
    (∀ a, a ∈ ["foo"] ↔
      ∃ e ∈ elemsOf (glist [.keyword "foo", .typeLeaf "word"]), ∃ pr,
        Grammar.simple e = some pr ∧ a ∈ pr.1) ∧
    (∀ a, a ∈ ["word"] ↔
      ∃ e ∈ elemsOf (glist [.keyword "foo", .typeLeaf "word"]), ∃ pr,
        Grammar.simple e = some pr ∧ a ∈ pr.2) :=
  (simple_characterization (glist [.keyword "foo", .typeLeaf "word"])
      none 0 none false .gnil true false).2 ["foo"] ["word"] (by decide)

/-- C7: whenever the configured exclude grammar matches at the current
position, `AnyNumberOf.match` fails immediately, returning an empty
matched part with the whole input unmatched. -/
theorem exclude_forces_failure (elems : Grammar) (maxT : Option Nat)
    (minT : Nat) (mpe : Option Nat) (e : Grammar) (gaps optFl : Bool)
    (segs : List Segment)
    (h : (Grammar.matchSeg e segs).has_match = true) :
    Grammar.matchFull true
      (.anyNumberOf elems maxT minT mpe true e gaps optFl) segs =
      (MatchResult.from_unmatched segs, false) := by
  unfold Grammar.matchFull
  rw [matchF_any_eq]
  have hsz : gsize e < gsize (Grammar.anyNumberOf elems maxT minT mpe
      true e gaps optFl) := by
    simp only [gsize]; omega
  rw [matchF_eq_matchFull true segs hsz]
  rw [if_pos]
  rw [Bool.true_and]
  exact h

/-- C7 witness: an exclude grammar matching the input forces the failure
result. -/
theorem exclude_forces_failure_witness :
    (Grammar.matchSeg (.keyword "foo") [fooSeg]).has_match = true ∧
    Grammar.matchFull true
      (.anyNumberOf (glist [.keyword "bar"]) none 0 none true
        (.keyword "foo") true false) [fooSeg] =
      (MatchResult.from_unmatched [fooSeg], false) :=
  ⟨by decide,
    exclude_forces_failure (glist [.keyword "bar"]) none 0 none
      (.keyword "foo") true false [fooSeg] (by decide)⟩

/-- C5: `OneOf(A, B)` either fails entirely (empty matched part, whole
input unmatched) or returns exactly the selected alternative's own match
— never a shorter or partial/empty success. -/
theorem oneOf_exactly_one (a b : Grammar) (segs : List Segment) :
    Grammar.matchSeg (oneOf a b) segs = MatchResult.from_unmatched segs ∨
    ((Grammar.matchSeg (oneOf a b) segs = Grammar.matchSeg a segs ∨
      Grammar.matchSeg (oneOf a b) segs = Grammar.matchSeg b segs) ∧
      (Grammar.matchSeg (oneOf a b) segs).has_match = true) := by
  have hidx : indexOptions 0 (elemsOf (glist [a, b])) = [(0, a), (1, b)] :=
    by rw [elemsOf_glist]; rfl
  have hsza : gsize a < gsize (oneOf a b) := by
    simp only [oneOf, gsize, glist]; omega
  have hszb : gsize b < gsize (oneOf a b) := by
    simp only [oneOf, gsize, glist]; omega
  rw [show Grammar.matchSeg (oneOf a b) segs =
      (matchF (gsize (oneOf a b) + 1) true (oneOf a b) segs).1 from rfl]
  rw [show oneOf a b = .anyNumberOf (glist [a, b]) (some 1) 1 none false
      .gnil true false from rfl]
  rw [matchF_any_eq]
  simp only [Bool.false_and]
  rw [if_neg Bool.false_ne_true]
  rw [hidx]
  cases segs with
  | nil =>
    left
    simp only [loopF]
    rw [if_neg (by decide),
      if_pos (show ([] : List Segment).length = 0 from rfl),
      if_neg (by omega)]
  | cons s rest =>
    simp only [loopF]
    rw [if_neg (by decide), if_neg (by simp)]
    rw [gapRest_zero, gapPre_zero]
    rcases matchOnceF_spec
        (fun g2 s2 =>
          (matchF (gsize (.anyNumberOf (glist [a, b]) (some 1) 1 none
            false .gnil true false)) true g2 s2).1) true [(0, a), (1, b)]
        (s :: rest) with hspec | ⟨i, g2, hmem, heq, hm⟩
    · left
      rw [hspec]
      dsimp only
      rw [if_neg (show
          ¬((MatchResult.from_unmatched (s :: rest)).has_match = true)
          from Bool.false_ne_true),
        if_neg (by omega)]
    · rw [heq]
      dsimp only
      rw [if_neg (by decide), if_pos hm, if_pos (by decide)]
      simp only [List.nil_append]
      have hg2 :
          (matchF (gsize (.anyNumberOf (glist [a, b]) (some 1) 1 none
            false .gnil true false)) true g2 (s :: rest)).1 =
            Grammar.matchSeg g2 (s :: rest) := by
        rcases List.mem_cons.mp hmem with h2 | h2
        · have hge : g2 = a := congrArg Prod.snd h2
          subst hge
          exact congrArg Prod.fst (matchF_eq_matchFull true (s :: rest)
            hsza)
        · rcases List.mem_singleton.mp h2 with h3
          have hge : g2 = b := congrArg Prod.snd h3
          subst hge
          exact congrArg Prod.fst (matchF_eq_matchFull true (s :: rest)
            hszb)
      right
      constructor
      · rcases List.mem_cons.mp hmem with h2 | h2
        · have hge : g2 = a := congrArg Prod.snd h2
          subst hge
          left
          exact hg2
        · rcases List.mem_singleton.mp h2 with h3
          have hge : g2 = b := congrArg Prod.snd h3
          subst hge
          right
          exact hg2
      · simpa [MatchResult.has_match] using hm

/-! ### Pruning-transparency lemmas -/

theorem firstNonWhitespace_cons {s : Segment} (rest : List Segment)
    (hc : s.isCode = true) (hr : s.raw ≠ "") :
    firstNonWhitespace (s :: rest) = some (s.raw, s.types) := by
  unfold firstNonWhitespace
  rw [if_pos]
  rw [hc, Bool.true_and, bne_iff_ne]
  exact hr

theorem cellSimple_mono {elems e : Grammar} {raws tys : List String}
    (h : cellSimple elems = some (raws, tys)) (he : e ∈ elemsOf elems) :
    ∃ pr, Grammar.simple e = some pr ∧
      (∀ a ∈ pr.1, a ∈ raws) ∧ (∀ a ∈ pr.2, a ∈ tys) := by
  rcases hse : Grammar.simple e with _ | pr
  · exfalso
    have : cellSimple elems = none :=
      (cellSimple_none_iff elems).mpr ⟨e, he, hse⟩
    rw [h] at this
    exact Option.some_ne_none _ this
  · refine ⟨pr, rfl, ?_, ?_⟩
    · intro a ha
      exact ((cellSimple_some_mem elems raws tys h).1 a).mpr
        ⟨e, he, pr, hse, ha⟩
    · intro a ha
      exact ((cellSimple_some_mem elems raws tys h).2 a).mpr
        ⟨e, he, pr, hse, ha⟩

theorem matchF_simple_sound :
    ∀ (fuel : Nat) (p : Bool) (g : Grammar) (s : Segment)
      (rest : List Segment) (raws tys : List String),
      s.isCode = true → s.raw ≠ "" →
      Grammar.simple g = some (raws, tys) →
      (matchF fuel p g (s :: rest)).1.has_match = true →
      s.raw ∈ raws ∨ ∃ t ∈ s.types, t ∈ tys := by
  intro fuel
  induction fuel using Nat.strong_induction_on with
  | _ fuel ih =>
    intro p g s rest raws tys hc hr hsimp hmatch
    match fuel, g with
    | 0, g =>
      rw [show matchF 0 p g (s :: rest) =
        (MatchResult.from_unmatched (s :: rest), false) from rfl] at hmatch
      simp [MatchResult.has_match, MatchResult.from_unmatched] at hmatch
    | fl + 1, .keyword t =>
      have h2 : some ([t], ([] : List String)) = some (raws, tys) := hsimp
      rcases Option.some_inj.mp h2 with h3
      injection h3 with h4 h5
      subst h4; subst h5
      left
      rw [show matchF (fl + 1) p (.keyword t) (s :: rest) =
        (leafKeywordMatch t (s :: rest),
          (leafKeywordMatch t (s :: rest)).has_match) from rfl] at hmatch
      unfold leafKeywordMatch at hmatch
      dsimp only at hmatch
      by_cases hcond : (s.isCode && s.raw == t) = true
      · rw [Bool.and_eq_true, beq_iff_eq] at hcond
        rw [hcond.2]
        exact List.mem_singleton.mpr rfl
      · rw [if_neg hcond] at hmatch
        simp [MatchResult.has_match, MatchResult.from_unmatched] at hmatch
    | fl + 1, .typeLeaf tag =>
      have h2 : some (([] : List String), [tag]) = some (raws, tys) := hsimp
      rcases Option.some_inj.mp h2 with h3
      injection h3 with h4 h5
      subst h4; subst h5
      right
      rw [show matchF (fl + 1) p (.typeLeaf tag) (s :: rest) =
        (leafTypeMatch tag (s :: rest),
          (leafTypeMatch tag (s :: rest)).has_match) from rfl] at hmatch
      unfold leafTypeMatch at hmatch
      dsimp only at hmatch
      by_cases hcond : s.types.contains tag = true
      · refine ⟨tag, ?_, List.mem_singleton.mpr rfl⟩
        simpa using hcond
      · rw [if_neg hcond] at hmatch
        simp [MatchResult.has_match, MatchResult.from_unmatched] at hmatch
    | fl + 1, .ref t =>
      exact absurd hsimp (by simp [Grammar.simple])
    | fl + 1, .gnil =>
      rw [show matchF (fl + 1) p .gnil (s :: rest) =
        (MatchResult.from_unmatched (s :: rest), false) from rfl] at hmatch
      simp [MatchResult.has_match, MatchResult.from_unmatched] at hmatch
    | fl + 1, .gcons g1 g2 =>
      rw [show matchF (fl + 1) p (.gcons g1 g2) (s :: rest) =
        (MatchResult.from_unmatched (s :: rest), false) from rfl] at hmatch
      simp [MatchResult.has_match, MatchResult.from_unmatched] at hmatch
    | fl + 1, .anyNumberOf elems maxT minT mpe hasExcl excl gaps optFl =>
      rw [simple_any_eq] at hsimp
      rw [matchF_any_eq] at hmatch
      by_cases hE : (hasExcl && (matchF fl p excl (s :: rest)).1.has_match)
          = true
      · rw [if_pos hE] at hmatch
        simp [MatchResult.has_match, MatchResult.from_unmatched] at hmatch
      · rw [if_neg hE] at hmatch
        simp only [loopF] at hmatch
        by_cases h1 : (optPos maxT && decide (0 ≥ maxT.getD 0)) = true
        · rw [if_pos h1] at hmatch
          simp [MatchResult.has_match] at hmatch
        · rw [if_neg h1, if_neg (by simp), gapRest_zero, gapPre_zero]
            at hmatch
          rcases matchOnceF_spec
              (fun g2 s2 => (matchF fl p g2 s2).1) p
              (indexOptions 0 (elemsOf elems)) (s :: rest) with
            hspec | ⟨i, g2, hmem, heq, hm⟩
          · rw [hspec] at hmatch
            dsimp only at hmatch
            rw [if_neg (show
                ¬((MatchResult.from_unmatched (s :: rest)).has_match =
                  true) from Bool.false_ne_true)] at hmatch
            by_cases h6 : 0 ≥ minT
            · rw [if_pos h6] at hmatch
              simp [MatchResult.has_match] at hmatch
            · rw [if_neg h6] at hmatch
              simp [MatchResult.has_match, MatchResult.from_unmatched]
                at hmatch
          · have hg2 : g2 ∈ elemsOf elems := mem_of_mem_indexOptions hmem
            obtain ⟨pr, hpr, hsub1, hsub2⟩ := cellSimple_mono hsimp hg2
            rcases pr with ⟨r2, t2⟩
            have := ih fl (by omega) p g2 s rest r2 t2 hc hr hpr hm
            rcases this with h7 | ⟨t, ht1, ht2⟩
            · exact Or.inl (hsub1 _ h7)
            · exact Or.inr ⟨t, ht1, hsub2 _ ht2⟩

theorem ltm_filter_keep {f : Grammar → List Segment → MatchResult}
    {keep : Nat × Grammar → Bool} {opts : List (Nat × Grammar)}
    {segs : List Segment}
    (h : ∀ og ∈ opts, keep og = false → (f og.2 segs).has_match = false) :
    ltm f (opts.filter keep) segs = ltm f opts segs := by
  induction opts with
  | nil => rfl
  | cons og rest ih =>
    by_cases hk : keep og = true
    · rw [List.filter_cons_of_pos hk]
      simp only [ltm]
      rw [ih (fun og2 hm hk2 => h og2 (List.mem_cons_of_mem _ hm) hk2)]
    · rw [List.filter_cons_of_neg (by simpa using hk)]
      have hfail := h og (List.mem_cons_self _ _)
        (by rcases Bool.eq_false_or_eq_true (keep og) with h2 | h2
            · exact absurd h2 hk
            · exact h2)
      rw [ih (fun og2 hm hk2 => h og2 (List.mem_cons_of_mem _ hm) hk2)]
      conv =>
        rhs
        rw [ltm]
      rw [hfail]
      simp only [Bool.false_and]
      rw [if_neg Bool.false_ne_true]

theorem matchOnceF_prune_eq {f : Grammar → List Segment → MatchResult}
    {opts : List (Nat × Grammar)} {u : List Segment}
    (h : ∀ og ∈ opts, ∀ fr fts, firstNonWhitespace u = some (fr, fts) →
      keepOption fr fts og.2 = false → (f og.2 u).has_match = false) :
    matchOnceF f true opts u = matchOnceF f false opts u := by
  unfold matchOnceF pruneOptions
  rcases hfw : firstNonWhitespace u with _ | ⟨fr, fts⟩
  · rfl
  · dsimp only
    rw [if_pos (show (true : Bool) = true from rfl),
      if_neg (show ¬(false : Bool) = true from Bool.false_ne_true)]
    have hfilter :
        ltm f (opts.filter fun og => keepOption fr fts og.2) u =
          ltm f opts u :=
      ltm_filter_keep (fun og hm hk => h og hm fr fts hfw hk)
    by_cases he :
        (opts.filter fun og => keepOption fr fts og.2).isEmpty = true
    · rw [if_pos he]
      have hfe : (opts.filter fun og => keepOption fr fts og.2) = [] :=
        List.isEmpty_iff.mp he
      by_cases ho : opts.isEmpty = true
      · rw [if_pos ho]
      · rw [if_neg ho, ← hfilter, hfe]
        rfl
    · rw [if_neg he]
      have ho : ¬opts.isEmpty = true := by
        intro h2
        rw [List.isEmpty_iff.mp h2] at he
        exact he rfl
      rw [if_neg ho, hfilter]

theorem loopF_congr_allCode
    {step1 step2 : List Segment → MatchResult × Option Nat}
    (maxT : Option Nat) (minT : Nat) (mpe : Option Nat) (gaps : Bool)
    (hsub : ∀ u,
      ((step2 u).1.matched_segments ++
        (step2 u).1.unmatched_segments).Sublist u)
    (hsteps : ∀ u, (∀ s ∈ u, s.isCode = true ∧ s.raw ≠ "") →
      step1 u = step2 u) :
    ∀ (lf : Nat) (acc unmatched : List Segment) (n : Nat)
      (counter : Nat → Nat),
      (∀ s ∈ unmatched, s.isCode = true ∧ s.raw ≠ "") →
      loopF step1 maxT minT mpe gaps lf acc unmatched n counter =
        loopF step2 maxT minT mpe gaps lf acc unmatched n counter := by
  intro lf
  induction lf with
  | zero => intro acc unmatched n counter hall; rfl
  | succ lf ih =>
    intro acc unmatched n counter hall
    have hallrest : ∀ s ∈ gapRest gaps n unmatched,
        s.isCode = true ∧ s.raw ≠ "" :=
      fun s hs => hall s ((gapRest_sublist gaps n unmatched).mem hs)
    simp only [loopF]
    rw [hsteps (gapRest gaps n unmatched) hallrest]
    rcases hres : step2 (gapRest gaps n unmatched) with ⟨m, mo⟩
    have hallm : ∀ s ∈ m.unmatched_segments,
        s.isCode = true ∧ s.raw ≠ "" := by
      intro s hs
      have h2 := hsub (gapRest gaps n unmatched)
      rw [hres] at h2
      exact hallrest s
        (h2.mem (List.mem_append.mpr (Or.inr hs)))
    cases mo with
    | some key =>
      dsimp only
      rw [ih _ _ _ _ hallm]
    | none =>
      dsimp only
      rw [ih _ _ _ _ hallm]

theorem matchF_prune_transparent :
    ∀ (fuel : Nat) (g : Grammar) (segs : List Segment),
      gsize g < fuel → (∀ s ∈ segs, s.isCode = true ∧ s.raw ≠ "") →
      matchF fuel true g segs = matchF fuel false g segs := by
  intro fuel
  induction fuel using Nat.strong_induction_on with
  | _ fuel ih =>
    intro g segs hsz hall
    obtain ⟨a, rfl⟩ : ∃ a, fuel = a + 1 := ⟨fuel - 1, by omega⟩
    cases g with
    | keyword t => simp only [matchF]
    | typeLeaf t => simp only [matchF]
    | ref t => simp only [matchF]
    | gnil => simp only [matchF]
    | gcons g1 g2 => simp only [matchF]
    | anyNumberOf elems maxT minT mpe hasExcl excl gaps optFl =>
      simp only [gsize] at hsz
      rw [matchF_any_eq, matchF_any_eq]
      rw [ih a (by omega) excl segs (by omega) hall]
      by_cases hE : (hasExcl && (matchF a false excl segs).1.has_match)
          = true
      · rw [if_pos hE, if_pos hE]
      · rw [if_neg hE, if_neg hE]
        have hszel : ∀ g2 ∈ elemsOf elems, gsize g2 < a := by
          intro g2 hg2
          have := gsize_lt_of_mem_elemsOf hg2
          omega
        apply loopF_congr_allCode maxT minT mpe gaps
        · intro u
          rcases matchOnceF_spec (fun g2 s2 => (matchF a false g2 s2).1)
              false (indexOptions 0 (elemsOf elems)) u with
            h | ⟨i, g2, _, heq, _⟩
          · rw [h]; simp [MatchResult.from_unmatched]
          · rw [heq]; exact matchF_sublist _ _ _ _
        · intro u hallu
          have hstep1 :
              matchOnceF (fun g2 s2 => (matchF a true g2 s2).1) true
                  (indexOptions 0 (elemsOf elems)) u =
                matchOnceF (fun g2 s2 => (matchF a true g2 s2).1) false
                  (indexOptions 0 (elemsOf elems)) u := by
            apply matchOnceF_prune_eq
            intro og hm fr fts hfw hkeep
            cases u with
            | nil => exact absurd hfw (by simp [firstNonWhitespace])
            | cons s0 urest =>
              obtain ⟨hc0, hr0⟩ := hallu s0 (List.mem_cons_self _ _)
              rw [firstNonWhitespace_cons urest hc0 hr0] at hfw
              rcases Option.some_inj.mp hfw with h2
              injection h2 with h3 h4
              subst h3; subst h4
              unfold keepOption at hkeep
              rcases hsimp : Grammar.simple og.2 with _ | ⟨raws, tys⟩
              · rw [hsimp] at hkeep
                exact absurd hkeep (by simp)
              · rw [hsimp] at hkeep
                dsimp only at hkeep
                rcases Bool.eq_false_or_eq_true
                    ((matchF a true og.2 (s0 :: urest)).1.has_match) with
                  htrue | hfalse
                · exfalso
                  rcases matchF_simple_sound a true og.2 s0 urest raws tys
                      hc0 hr0 hsimp htrue with h5 | ⟨t, ht1, ht2⟩
                  · have h1 : (!raws.isEmpty && raws.contains s0.raw) =
                        true := by
                      rw [Bool.and_eq_true]
                      constructor
                      · rcases raws with _ | ⟨r0, rrest⟩
                        · simp at h5
                        · rfl
                      · simpa using h5
                    rw [h1, Bool.true_or] at hkeep
                    exact absurd hkeep (by simp)
                  · have h1 : (!tys.isEmpty &&
                        s0.types.any fun t2 => tys.contains t2) = true := by
                      rw [Bool.and_eq_true]
                      constructor
                      · rcases tys with _ | ⟨t0, trest⟩
                        · simp at ht2
                        · rfl
                      · rw [List.any_eq_true]
                        exact ⟨t, ht1, by simpa using ht2⟩
                    rw [h1, Bool.or_true] at hkeep
                    exact absurd hkeep (by simp)
                · exact hfalse
          rw [hstep1]
          apply matchOnceF_congr
          intro og hm
          rw [ih a (by omega) og.2 u
            (hszel og.2 (mem_of_mem_indexOptions hm)) hallu]
        · exact hall

/-- C2 (corrected, amended form): on inputs consisting entirely of code
segments with non-empty raw text, replacing the simple-characterization
pre-filter by one that keeps every alternative yields an identical
`MatchResult` for every grammar configuration; with leading non-code
segments an alternative that would match them can be wrongly pruned. -/
theorem prune_transparent (g : Grammar) (segs : List Segment)
    (h : ∀ s ∈ segs, s.isCode = true ∧ s.raw ≠ "") :
    Grammar.matchSeg g segs = Grammar.matchSegNoPrune g segs := by
  unfold Grammar.matchSeg Grammar.matchSegNoPrune Grammar.matchFull
  rw [matchF_prune_transparent (gsize g + 1) g segs (by omega) h]

/-- C2 witness: transparency applied to `OneOf(foo, bar)` on the all-code
input `[foo, bar]`. -/
theorem prune_transparent_witness :
    (∀ s ∈ [fooSeg, barSeg], s.isCode = true ∧ s.raw ≠ "") ∧
    Grammar.matchSeg (oneOf (.keyword "foo") (.keyword "bar"))
        [fooSeg, barSeg] =
      Grammar.matchSegNoPrune (oneOf (.keyword "foo") (.keyword "bar"))
        [fooSeg, barSeg] :=
  ⟨by decide,
    prune_transparent (oneOf (.keyword "foo") (.keyword "bar"))
      [fooSeg, barSeg] (by decide)⟩

/-- C2 counterexample: an alternative matching a leading whitespace
segment is pruned away — pruning keys on the first non-whitespace
segment — so the pruned and unpruned matchers return different
`MatchResult`s on `[whitespace, foo]`. -/
theorem prune_transparent_counterexample :
    Grammar.matchSeg
        (.anyNumberOf (glist [.typeLeaf "whitespace"]) none 0 none false
          .gnil true false) [wsSeg, fooSeg] ≠
      Grammar.matchSegNoPrune
        (.anyNumberOf (glist [.typeLeaf "whitespace"]) none 0 none false
          .gnil true false) [wsSeg, fooSeg] := by
  decide

/-- C3 witness: the characterization applied to a reference that resolves
in the parent scope. -/
theorem resolveReference_spec_witness :
    ([⟨[], []⟩, ⟨[⟨"foo", true, none⟩], []⟩] : List Scope) ≠ [] ∧
    ([["foo"]] : List (List String)) ≠ [] ∧
    (resolveReference "foo" [["foo"]] none
        [⟨[], []⟩, ⟨[⟨"foo", true, none⟩], []⟩] = none ↔
      (∃ q ∈ ([⟨[], []⟩, ⟨[⟨"foo", true, none⟩], []⟩] : List Scope),
        objectRefMatchesTable [["foo"]] (scopeTargets q) = true) ∨
      (∃ d, (none : Option (List String)) = some d ∧ d ≠ [] ∧
        objectRefMatchesTable [["foo"]] [d] = true)) :=
  ⟨by decide, by decide,
    resolveReference_spec [⟨[], []⟩, ⟨[⟨"foo", true, none⟩], []⟩] "foo"
      [["foo"]] none (by decide) (by decide)⟩

end SfOM
